import Mathlib

/-!
Verification of the task-value module of maa-cli
(`src/maa-cli/src/config/task/value/mod.rs`).

The module is embedded shallowly:

* `Value` mirrors the Rust enum `Value` (variants in declaration order, which
  matters for the untagged serde encoding).
* `Map α` mirrors `pub type Map<T> = BTreeMap<String, T>`: an association list
  kept sorted by key, with the `Map.sortedKeys` invariant.  The key order
  `keyLt` is lexicographic on the code points of the string, which coincides
  with Rust's `Ord for String` (byte-wise lexicographic) because UTF-8 is
  order-preserving on code points.
* Rust's in-place mutation (`init`, `merge_mut`, `insert`) is modelled by
  returning the new value; `&mut self` methods that can fail return the pair
  of the mutated value and the error, so that partial mutation on error is
  observable.
* `panic!` is modelled by the `Panics` result type.
* The interactive input-resolution backend lives in `input.rs`, which is not
  part of the sources under verification; following the specification it is
  abstracted as a `Resolver` record of `resolve` capabilities, and the input
  descriptor types are modelled from the specification.
-/

set_option maxHeartbeats 1000000
set_option linter.unusedVariables false

/-- A 64-bit float payload (`f64`), carried opaquely as its IEEE-754 bit
pattern.  The value model never computes with floats — it only stores,
compares and moves them — so the bit pattern is all that is needed. -/
structure F64 where
  bits : Nat
deriving DecidableEq

/-- Modelled from the spec: the error produced by the input-resolution
capability (`input::Error` in the missing `input.rs`), "distinct from
type-mismatch"; its payload is irrelevant to the value model. -/
inductive InputError where
  | failed : String → InputError
deriving DecidableEq

/-- Modelled from the spec: a free-form pending-input descriptor with an
optional default scalar and an optional human-readable description
(`Input<F>` in the missing `input.rs`). -/
structure Input (α : Type) where
  default : Option α
  description : Option String
deriving DecidableEq

/-- Modelled from the spec: a selection pending-input descriptor with an
ordered list of alternatives of the scalar type and an optional description
(`Select<F>` in the missing `input.rs`). -/
structure Select (α : Type) where
  alternatives : List α
  description : Option String
deriving DecidableEq

/-- Modelled from the spec: a pending input is either a free-form input or a
selection (`UserInput<F>` in the missing `input.rs`, an untagged union that
tries the free-form shape before the selection shape). -/
inductive UserInput (α : Type) where
  | input : Input α → UserInput α
  | select : Select α → UserInput α
deriving DecidableEq

/-- Modelled from the spec: the boolean-toggle pending-input descriptor with
optional default and description (`BoolInput` in the missing `input.rs`). -/
structure BoolInput where
  default : Option Bool
  description : Option String
deriving DecidableEq

/-- Modelled from the spec: the input-resolution capability.  The core
depends on the backend only through a `resolve() -> Result<T, InputError>`
capability per descriptor shape (Rust's `UserInput::get` / `BoolInput::get`);
theorems quantify over an arbitrary resolver. -/
structure Resolver where
  getString : UserInput String → Except InputError String
  getBool : BoolInput → Except InputError Bool
  getInt : UserInput Int → Except InputError Int
  getFloat : UserInput F64 → Except InputError F64

/-- The coercion / initialization error type (`TryFromError` in the source):
either a type mismatch or an input-resolution error. -/
inductive TryFromError where
  | typeMismatch : TryFromError
  | inputError : InputError → TryFromError
deriving DecidableEq

/-- The recursive tagged union `Value` from the source, with the variants in
their Rust declaration order (the order drives untagged deserialization):
`Array`, `InputString`, `InputBool`, `InputInt`, `InputFloat`, `Object`,
`String`, `Bool`, `Int`, `Float`, `Null`.  `i64` is modelled by `Int` (the
module performs no integer arithmetic) and the `Object` payload is the
sorted association list standing for `BTreeMap<String, Value>`. -/
inductive Value where
  | array : List Value → Value
  | inputString : UserInput String → Value
  | inputBool : BoolInput → Value
  | inputInt : UserInput Int → Value
  | inputFloat : UserInput F64 → Value
  | object : List (String × Value) → Value
  | string : String → Value
  | bool : Bool → Value
  | int : Int → Value
  | float : F64 → Value
  | null : Value

/-- Lexicographic order on character lists by code point; computable by the
kernel (unlike the builtin `String` order, which goes through byte
iterators). -/
def charsLt : List Char → List Char → Bool
  | [], [] => false
  | [], _ :: _ => true
  | _ :: _, [] => false
  | a :: as, b :: bs =>
    if a.toNat < b.toNat then true
    else if a.toNat = b.toNat then charsLt as bs
    else false

/-- The key order of `BTreeMap<String, _>`: Rust compares strings byte-wise,
which equals code-point-wise lexicographic comparison because UTF-8 is
order-preserving. -/
def keyLt (a b : String) : Bool := charsLt a.data b.data

/-- `pub type Map<T> = BTreeMap<String, T>`, represented as an association
list; the B-tree's ordering invariant is the predicate `Map.sortedKeys`. -/
abbrev Map (α : Type) := List (String × α)

/-- `BTreeMap::get`: exact-key lookup. -/
def Map.get {α : Type} : Map α → String → Option α
  | [], _ => none
  | (k, v) :: rest, key => if key = k then some v else Map.get rest key

/-- `BTreeMap::insert`: insert or overwrite, keeping keys sorted. -/
def Map.insert {α : Type} : Map α → String → α → Map α
  | [], key, val => [(key, val)]
  | (k, v) :: rest, key, val =>
    if keyLt key k then (key, val) :: (k, v) :: rest
    else if key = k then (key, val) :: rest
    else (k, v) :: Map.insert rest key val

/-- The B-tree representation invariant: strictly increasing keys. -/
def Map.sortedKeys {α : Type} : Map α → Bool
  | [] => true
  | [_] => true
  | (k1, v1) :: (k2, v2) :: rest => keyLt k1 k2 && Map.sortedKeys ((k2, v2) :: rest)

/-- Outcome of an operation that may `panic!`: abnormal termination carries
no value (the Rust panic unwinds), a normal return carries the result. -/
inductive Panics (α : Type) where
  | panicked : Panics α
  | ret : α → Panics α
deriving DecidableEq

/-- `Value::new()`: a new empty object (also `Default::default()`). -/
def Value.new : Value := Value.object []

mutual

/-- `Value::init(&mut self) -> Result<(), TryFromError>`.  Each pending-input
node is resolved via the capability and replaced in place by the matching
literal variant; objects and arrays are initialized recursively, element by
element in storage order (key order for the sorted map, index order for the
array); the `?` operator aborts the traversal on the first failure.  The
returned pair is (the value after the call, the error if any): on error the
value is the partially-mutated tree, as in Rust. -/
def Value.init (R : Resolver) : Value → Value × Option TryFromError
  | .inputString u =>
    match R.getString u with
    | .ok s => (.string s, none)
    | .error e => (.inputString u, some (.inputError e))
  | .inputBool u =>
    match R.getBool u with
    | .ok b => (.bool b, none)
    | .error e => (.inputBool u, some (.inputError e))
  | .inputInt u =>
    match R.getInt u with
    | .ok n => (.int n, none)
    | .error e => (.inputInt u, some (.inputError e))
  | .inputFloat u =>
    match R.getFloat u with
    | .ok f => (.float f, none)
    | .error e => (.inputFloat u, some (.inputError e))
  | .object m =>
    match Value.initMap R m with
    | (m2, err) => (.object m2, err)
  | .array a =>
    match Value.initList R a with
    | (a2, err) => (.array a2, err)
  | .string s => (.string s, none)
  | .bool b => (.bool b, none)
  | .int n => (.int n, none)
  | .float f => (.float f, none)
  | .null => (.null, none)

def Value.initMap (R : Resolver) : Map Value → Map Value × Option TryFromError
  | [] => ([], none)
  | (k, v) :: rest =>
    match Value.init R v with
    | (v2, none) =>
      match Value.initMap R rest with
      | (rest2, err) => ((k, v2) :: rest2, err)
    | (v2, some e) => ((k, v2) :: rest, some e)

def Value.initList (R : Resolver) : List Value → List Value × Option TryFromError
  | [] => ([], none)
  | v :: rest =>
    match Value.init R v with
    | (v2, none) =>
      match Value.initList R rest with
      | (rest2, err) => (v2 :: rest2, err)
    | (v2, some e) => (v2 :: rest, some e)

end

/-- `Value::get(&self, key) -> Option<&Value>`: lookup on an object, `panic!`
("value is not an object") on any other variant. -/
def Value.get : Value → String → Panics (Option Value)
  | .object m, key => .ret (Map.get m key)
  | _, _ => .panicked

/-- `Value::insert(&mut self, key, value)`: insert on an object, `panic!` on
any other variant.  The returned value is the mutated receiver. -/
def Value.insert : Value → String → Value → Panics Value
  | .object m, key, v => .ret (.object (Map.insert m key v))
  | _, _, _ => .panicked

/-- `Value::get_or(&self, key, default)`: navigate via `get` (so it inherits
the panic on a non-object receiver); on a missing key return the default, on
a present key convert the stored value.  The generic bound
`T: TryFrom<&Value>` is modelled by the conversion function `conv` (the
instances are `as_bool` / `as_int` / `as_float` / `as_string` below). -/
def Value.get_or {α : Type} (conv : Value → Except TryFromError α)
    (v : Value) (key : String) (defaultVal : α) : Panics (Except TryFromError α) :=
  match v.get key with
  | .panicked => .panicked
  | .ret (some value) => .ret (conv value)
  | .ret none => .ret (.ok defaultVal)

/-- `Value::is_null`. -/
def Value.is_null : Value → Bool
  | .null => true
  | _ => false

/-- `Value::is_bool`: true for `Bool` and `InputBool`. -/
def Value.is_bool : Value → Bool
  | .bool _ => true
  | .inputBool _ => true
  | _ => false

/-- `Value::as_bool`: the literal value for `Bool`, a resolution attempt for
`InputBool` (the `?` lifts `input::Error` into `TryFromError::InputError`),
`TypeMismatch` otherwise. -/
def Value.as_bool (R : Resolver) : Value → Except TryFromError Bool
  | .inputBool u => (R.getBool u).mapError .inputError
  | .bool b => .ok b
  | _ => .error .typeMismatch

/-- `Value::is_int`: true for `Int` and `InputInt`. -/
def Value.is_int : Value → Bool
  | .int _ => true
  | .inputInt _ => true
  | _ => false

/-- `Value::as_int`. -/
def Value.as_int (R : Resolver) : Value → Except TryFromError Int
  | .inputInt u => (R.getInt u).mapError .inputError
  | .int n => .ok n
  | _ => .error .typeMismatch

/-- `Value::is_float`: true for `Float` and `InputFloat`. -/
def Value.is_float : Value → Bool
  | .float _ => true
  | .inputFloat _ => true
  | _ => false

/-- `Value::as_float`. -/
def Value.as_float (R : Resolver) : Value → Except TryFromError F64
  | .inputFloat u => (R.getFloat u).mapError .inputError
  | .float f => .ok f
  | _ => .error .typeMismatch

/-- `Value::is_string`: true for `String` and `InputString`. -/
def Value.is_string : Value → Bool
  | .string _ => true
  | .inputString _ => true
  | _ => false

/-- `Value::as_string`. -/
def Value.as_string (R : Resolver) : Value → Except TryFromError String
  | .inputString u => (R.getString u).mapError .inputError
  | .string s => .ok s
  | _ => .error .typeMismatch

/-- `Value::is_array`. -/
def Value.is_array : Value → Bool
  | .array _ => true
  | _ => false

/-- `Value::is_object`. -/
def Value.is_object : Value → Bool
  | .object _ => true
  | _ => false

mutual

/-- `Value::merge_mut(&mut self, other)`: when both sides are objects, walk
`other`'s entries in order, recursively merging into entries whose key is
already present and cloning entries whose key is absent; in every other
pairing the right-hand side replaces the receiver (`*s = o.clone()`).  The
returned value is the mutated receiver. -/
def Value.merge_mut : Value → Value → Value
  | .object m1, .object m2 => .object (Value.mergeMap m1 m2)
  | _, o => o

def Value.mergeMap : Map Value → Map Value → Map Value
  | m, [] => m
  | m, (k, v) :: rest =>
    match Map.get m k with
    | some sv => Value.mergeMap (Map.insert m k (Value.merge_mut sv v)) rest
    | none => Value.mergeMap (Map.insert m k v) rest

end

/-- `Value::merge(&self, other) -> Value`: clone the receiver and merge in
place (cloning is the identity on values). -/
def Value.merge (s o : Value) : Value := Value.merge_mut s o

mutual

/-- Fully-concrete check: no pending-input variant anywhere in the tree. -/
def Value.isConcrete : Value → Bool
  | .inputString _ => false
  | .inputBool _ => false
  | .inputInt _ => false
  | .inputFloat _ => false
  | .object m => Value.isConcreteMap m
  | .array a => Value.isConcreteList a
  | _ => true

def Value.isConcreteMap : Map Value → Bool
  | [] => true
  | (_, v) :: rest => Value.isConcrete v && Value.isConcreteMap rest

def Value.isConcreteList : List Value → Bool
  | [] => true
  | v :: rest => Value.isConcrete v && Value.isConcreteList rest

end

/-- A pending-input node stripped of its surrounding tree context; used to
state where in traversal order `init` resolves or fails. -/
inductive Pending where
  | pstring : UserInput String → Pending
  | pbool : BoolInput → Pending
  | pint : UserInput Int → Pending
  | pfloat : UserInput F64 → Pending
deriving DecidableEq

mutual

/-- The pending-input nodes of a tree, in `init`'s traversal order (index
order inside arrays, key order inside sorted objects). -/
def Value.pendings : Value → List Pending
  | .inputString u => [.pstring u]
  | .inputBool u => [.pbool u]
  | .inputInt u => [.pint u]
  | .inputFloat u => [.pfloat u]
  | .object m => Value.pendingsMap m
  | .array a => Value.pendingsList a
  | _ => []

def Value.pendingsMap : Map Value → List Pending
  | [] => []
  | (_, v) :: rest => Value.pendings v ++ Value.pendingsMap rest

def Value.pendingsList : List Value → List Pending
  | [] => []
  | v :: rest => Value.pendings v ++ Value.pendingsList rest

end

/-- Resolve one pending node with the capability, yielding the literal value
that `init` would put in its place. -/
def Pending.resolve (R : Resolver) : Pending → Except InputError Value
  | .pstring u => (R.getString u).map Value.string
  | .pbool u => (R.getBool u).map Value.bool
  | .pint u => (R.getInt u).map Value.int
  | .pfloat u => (R.getFloat u).map Value.float

/-- Does resolution of this pending node succeed under `R`? -/
def Pending.resolves (R : Resolver) (p : Pending) : Bool :=
  match p.resolve R with
  | .ok _ => true
  | .error _ => false

/-- Do all pending nodes of the list resolve under `R`? -/
def allOk (R : Resolver) (ps : List Pending) : Bool :=
  ps.all (Pending.resolves R)

/-- Number of pending nodes before the first resolution failure (the length
of the list when every resolution succeeds). -/
def resolvedCount (R : Resolver) : List Pending → Nat
  | [] => 0
  | p :: rest =>
    match p.resolve R with
    | .ok _ => resolvedCount R rest + 1
    | .error _ => 0

/-- The error of the first pending node (in order) whose resolution fails. -/
def firstFailure (R : Resolver) : List Pending → Option InputError
  | [] => none
  | p :: rest =>
    match p.resolve R with
    | .ok _ => firstFailure R rest
    | .error e => some e

mutual

/-- Specification-side replay of `init` with a fuel budget: walk the tree in
`init`'s traversal order and replace pending nodes in place by their resolved
value while fuel remains, leaving every node untouched once the fuel is
exhausted.  Returns the tree and the leftover fuel.  (With fuel equal to the
number of pending nodes that resolve before the first failure, this
reproduces the partially-mutated tree `init` leaves behind; the
`.error` fallback inside the positive-fuel branches is never exercised in
that use.) -/
def Value.initUpTo (R : Resolver) : Value → Nat → Value × Nat
  | .inputString u, 0 => (.inputString u, 0)
  | .inputString u, k + 1 =>
    (match R.getString u with
     | .ok s => .string s
     | .error _ => .inputString u, k)
  | .inputBool u, 0 => (.inputBool u, 0)
  | .inputBool u, k + 1 =>
    (match R.getBool u with
     | .ok b => .bool b
     | .error _ => .inputBool u, k)
  | .inputInt u, 0 => (.inputInt u, 0)
  | .inputInt u, k + 1 =>
    (match R.getInt u with
     | .ok n => .int n
     | .error _ => .inputInt u, k)
  | .inputFloat u, 0 => (.inputFloat u, 0)
  | .inputFloat u, k + 1 =>
    (match R.getFloat u with
     | .ok f => .float f
     | .error _ => .inputFloat u, k)
  | .object m, k =>
    match Value.initUpToMap R m k with
    | (m2, k2) => (.object m2, k2)
  | .array a, k =>
    match Value.initUpToList R a k with
    | (a2, k2) => (.array a2, k2)
  | v, k => (v, k)

def Value.initUpToMap (R : Resolver) : Map Value → Nat → Map Value × Nat
  | [], k => ([], k)
  | (key, v) :: rest, k =>
    match Value.initUpTo R v k with
    | (v2, k2) =>
      match Value.initUpToMap R rest k2 with
      | (rest2, k3) => ((key, v2) :: rest2, k3)

def Value.initUpToList (R : Resolver) : List Value → Nat → List Value × Nat
  | [], k => ([], k)
  | v :: rest, k =>
    match Value.initUpTo R v k with
    | (v2, k2) =>
      match Value.initUpToList R rest k2 with
      | (rest2, k3) => (v2 :: rest2, k3)

end

/-- The self-describing wire data model of the untagged encoding (the
relevant fragment of serde's data model): scalars, unit (`Null`), sequences
and string-keyed maps.  Integer-to-float widening that serde applies when a
float is deserialized from an integer token is not modelled (floating
point); no claim depends on it. -/
inductive Wire where
  | unit : Wire
  | bool : Bool → Wire
  | int : Int → Wire
  | float : F64 → Wire
  | str : String → Wire
  | seq : List Wire → Wire
  | map : List (String × Wire) → Wire

/-- One optional record field on the wire: absent when `None`. -/
def optEntry (name : String) : Option Wire → List (String × Wire)
  | none => []
  | some w => [(name, w)]

/-- Modelled from the spec: the wire record of a free-form input descriptor
(fields `default` and `description`, each emitted only when present). -/
def serInput {α : Type} (toW : α → Wire) (i : Input α) : Wire :=
  Wire.map (optEntry "default" (i.default.map toW) ++
            optEntry "description" (i.description.map Wire.str))

/-- Modelled from the spec: the wire record of a selection descriptor (the
`alternatives` sequence and the optional `description`). -/
def serSelect {α : Type} (toW : α → Wire) (s : Select α) : Wire :=
  Wire.map (("alternatives", Wire.seq (s.alternatives.map toW)) ::
            optEntry "description" (s.description.map Wire.str))

/-- Modelled from the spec: a pending input serializes as the record of its
shape (no variant tag on the wire). -/
def serUserInput {α : Type} (toW : α → Wire) : UserInput α → Wire
  | .input i => serInput toW i
  | .select s => serSelect toW s

/-- Modelled from the spec: the wire record of the boolean-toggle
descriptor. -/
def serBoolInput (b : BoolInput) : Wire :=
  Wire.map (optEntry "default" (b.default.map Wire.bool) ++
            optEntry "description" (b.description.map Wire.str))

mutual

/-- Serialization of `Value` under `#[serde(untagged)]`: scalars as bare
primitives, `Null` as unit, arrays as sequences, objects as maps in key
order (the sorted representation), pending inputs as their records. -/
def Value.serialize : Value → Wire
  | .array a => .seq (Value.serializeList a)
  | .inputString u => serUserInput Wire.str u
  | .inputBool b => serBoolInput b
  | .inputInt u => serUserInput Wire.int u
  | .inputFloat u => serUserInput Wire.float u
  | .object m => .map (Value.serializeMap m)
  | .string s => .str s
  | .bool b => .bool b
  | .int n => .int n
  | .float f => .float f
  | .null => .unit

def Value.serializeList : List Value → List Wire
  | [] => []
  | v :: r => Value.serialize v :: Value.serializeList r

def Value.serializeMap : Map Value → List (String × Wire)
  | [] => []
  | (k, v) :: r => (k, Value.serialize v) :: Value.serializeMap r

end

/-- Scalar field parser: a wire string. -/
def parseString : Wire → Option String
  | .str s => some s
  | _ => none

/-- Scalar field parser: a wire boolean. -/
def parseBool : Wire → Option Bool
  | .bool b => some b
  | _ => none

/-- Scalar field parser: a wire integer. -/
def parseInt : Wire → Option Int
  | .int n => some n
  | _ => none

/-- Scalar field parser: a wire float (integer widening not modelled). -/
def parseFloat : Wire → Option F64
  | .float f => some f
  | _ => none

/-- Derived-deserializer handling of an `Option<T>` struct field: a missing
field and an explicit unit (`null`) both give `None`; any other wire value
must parse as `T`. -/
def parseOptField {α : Type} (p : Wire → Option α)
    (m : List (String × Wire)) (name : String) : Option (Option α) :=
  match Map.get m name with
  | none => some none
  | some Wire.unit => some none
  | some w => (p w).map some

/-- Are all keys of the wire map among the allowed field names?  The derived
deserializers of the input descriptors reject unknown fields (the in-source
serde tests require a map such as `{"key": "value"}` to fall through to
`Object`, which forces `deny_unknown_fields` on the descriptor structs). -/
def keysAmong (keys : List String) (allowed : List String) : Bool :=
  keys.all fun k => allowed.contains k

/-- Modelled from the spec: the derived deserializer of the free-form input
record — a map whose keys are among `default` / `description`, with the
optional fields parsed at the element type. -/
def deserInput {α : Type} (p : Wire → Option α) : Wire → Option (Input α)
  | .map m =>
    if keysAmong (m.map Prod.fst) ["default", "description"] then
      match parseOptField p m "default", parseOptField parseString m "description" with
      | some d, some desc => some ⟨d, desc⟩
      | _, _ => none
    else none
  | _ => none

/-- Parse every element of a wire sequence at the element type. -/
def parseListWith {α : Type} (p : Wire → Option α) : List Wire → Option (List α)
  | [] => some []
  | w :: r =>
    match p w, parseListWith p r with
    | some a, some rest => some (a :: rest)
    | _, _ => none

/-- Modelled from the spec: the derived deserializer of the selection record
— a map whose keys are among `alternatives` / `description`, with the
mandatory `alternatives` sequence parsed at the element type. -/
def deserSelect {α : Type} (p : Wire → Option α) : Wire → Option (Select α)
  | .map m =>
    if keysAmong (m.map Prod.fst) ["alternatives", "description"] then
      match Map.get m "alternatives" with
      | some (Wire.seq l) =>
        match parseListWith p l, parseOptField parseString m "description" with
        | some alts, some desc => some ⟨alts, desc⟩
        | _, _ => none
      | _ => none
    else none
  | _ => none

/-- Modelled from the spec: untagged `UserInput<F>` — try the free-form
record first, then the selection record. -/
def deserUserInput {α : Type} (p : Wire → Option α) (w : Wire) : Option (UserInput α) :=
  match deserInput p w with
  | some i => some (.input i)
  | none => (deserSelect p w).map UserInput.select

/-- Modelled from the spec: the derived deserializer of the boolean-toggle
record. -/
def deserBoolInput : Wire → Option BoolInput
  | .map m =>
    if keysAmong (m.map Prod.fst) ["default", "description"] then
      match parseOptField parseBool m "default", parseOptField parseString m "description" with
      | some d, some desc => some ⟨d, desc⟩
      | _, _ => none
    else none
  | _ => none

/-- The pending-input variants tried in their `Value` declaration order:
`InputString`, `InputBool`, `InputInt`, `InputFloat`. -/
def deserPendingChain (w : Wire) : Option Value :=
  match deserUserInput parseString w with
  | some u => some (.inputString u)
  | none =>
    match deserBoolInput w with
    | some b => some (.inputBool b)
    | none =>
      match deserUserInput parseInt w with
      | some u => some (.inputInt u)
      | none =>
        match deserUserInput parseFloat w with
        | some u => some (.inputFloat u)
        | none => none

mutual

/-- Untagged deserialization of `Value`.  serde tries the variants in
declaration order (`Array`, `InputString`, `InputBool`, `InputInt`,
`InputFloat`, `Object`, `String`, `Bool`, `Int`, `Float`, `Null`); since each
variant only accepts one wire shape, the trial order collapses to a match on
the shape:

* a sequence is only accepted by `Array` (element deserialization is total,
  `deserializeV_total` below, so `Array` never falls through);
* a map is tried against the four pending-input records in order and then
  against `Object`;
* a scalar is accepted exactly by its own variant (`Int` is declared before
  `Float`, so an integer token is an `Int`);
* unit is `Null`. -/
def deserializeV : Wire → Option Value
  | .unit => some .null
  | .bool b => some (.bool b)
  | .int n => some (.int n)
  | .float f => some (.float f)
  | .str s => some (.string s)
  | .seq l => (deserializeSeq l).map Value.array
  | .map m =>
    match deserPendingChain (.map m) with
    | some v => some v
    | none => (deserializeMap m []).map Value.object

def deserializeSeq : List Wire → Option (List Value)
  | [] => some []
  | w :: rest =>
    match deserializeV w, deserializeSeq rest with
    | some v, some vs => some (v :: vs)
    | _, _ => none

/-- `BTreeMap` deserialization: fold the wire entries into the map with
`insert`, in wire order (normalizing the key order). -/
def deserializeMap : List (String × Wire) → Map Value → Option (Map Value)
  | [], acc => some acc
  | (k, w) :: rest, acc =>
    match deserializeV w with
    | some v => deserializeMap rest (Map.insert acc k v)
    | none => none

end

mutual

/-- The representation invariant of a tree as Rust maintains it: every object
map is sorted by key (a `BTreeMap` normalizes key order). -/
def Value.wf : Value → Bool
  | .object m => Map.sortedKeys m && Value.wfMap m
  | .array a => Value.wfList a
  | _ => true

def Value.wfMap : Map Value → Bool
  | [] => true
  | (_, v) :: rest => Value.wf v && Value.wfMap rest

def Value.wfList : List Value → Bool
  | [] => true
  | v :: rest => Value.wf v && Value.wfList rest

end

mutual

/-- No object anywhere in the tree has a key set that a pending-input record
could match: each object map has at least one key outside
`default` / `description` and at least one outside
`alternatives` / `description`.  Such an object always falls through the
pending-input deserializers (they reject unknown fields), regardless of the
field values. -/
def Value.serdeSafe : Value → Bool
  | .object m =>
    (!keysAmong (m.map Prod.fst) ["default", "description"] &&
     !keysAmong (m.map Prod.fst) ["alternatives", "description"]) &&
    Value.serdeSafeMap m
  | .array a => Value.serdeSafeList a
  | _ => true

def Value.serdeSafeMap : Map Value → Bool
  | [] => true
  | (_, v) :: rest => Value.serdeSafe v && Value.serdeSafeMap rest

def Value.serdeSafeList : List Value → Bool
  | [] => true
  | v :: rest => Value.serdeSafe v && Value.serdeSafeList rest

end

/-- A resolver that answers every request with a fixed scalar; used to
instantiate the theorems at concrete inputs. -/
def okResolver : Resolver where
  getString := fun _ => .ok "resolved"
  getBool := fun _ => .ok true
  getInt := fun _ => .ok 42
  getFloat := fun _ => .ok ⟨0⟩

/-- A resolver whose every resolution fails; used to instantiate the
theorems at concrete inputs. -/
def failResolver : Resolver where
  getString := fun _ => .error (.failed "no usable value")
  getBool := fun _ => .error (.failed "no usable value")
  getInt := fun _ => .error (.failed "no usable value")
  getFloat := fun _ => .error (.failed "no usable value")

/-- A small tree with pending-input nodes before and after a scalar, used to
instantiate the `init` theorems. -/
def samplePendingTree : Value :=
  Value.object
    [("a", Value.inputInt (.input ⟨some 1, none⟩)),
     ("b", Value.array [Value.int 5, Value.inputBool ⟨some true, none⟩]),
     ("c", Value.null)]

/-- A fully-concrete well-formed tree whose objects cannot be mistaken for
pending-input records, used to instantiate the round-trip theorem. -/
def sampleConcreteTree : Value :=
  Value.object
    [("flag", Value.bool true),
     ("items", Value.array [Value.int 1, Value.string "two", Value.null]),
     ("nested", Value.object [("pi", Value.float ⟨100⟩), ("word", Value.string "w")])]

/-! ## Properties of the key order and the map operations -/

theorem charsLt_irrefl : ∀ l : List Char, charsLt l l = false
  | [] => rfl
  | a :: as => by simp [charsLt, charsLt_irrefl as]

theorem keyLt_irrefl (s : String) : keyLt s s = false := charsLt_irrefl s.data

theorem charsLt_cons (x y : Char) (xs ys : List Char) :
    charsLt (x :: xs) (y :: ys) = true ↔
      x.toNat < y.toNat ∨ (x.toNat = y.toNat ∧ charsLt xs ys = true) := by
  simp only [charsLt]
  split
  · next h => simp [h]
  · next h =>
    split
    · next h2 => simp [h, h2]
    · next h2 => simp [h, h2]

theorem charsLt_trans : ∀ a b c : List Char,
    charsLt a b = true → charsLt b c = true → charsLt a c = true
  | [], [], _, hab, _ => by simp [charsLt] at hab
  | [], _ :: _, [], _, hbc => by simp [charsLt] at hbc
  | [], _ :: _, _ :: _, _, _ => by simp [charsLt]
  | _ :: _, [], _, hab, _ => by simp [charsLt] at hab
  | _ :: _, _ :: _, [], _, hbc => by simp [charsLt] at hbc
  | x :: xs, y :: ys, z :: zs, hab, hbc => by
    rw [charsLt_cons] at hab hbc ⊢
    rcases hab with h1 | ⟨h1, h1r⟩ <;> rcases hbc with h2 | ⟨h2, h2r⟩
    · exact Or.inl (Nat.lt_trans h1 h2)
    · exact Or.inl (h2 ▸ h1)
    · exact Or.inl (h1 ▸ h2)
    · exact Or.inr ⟨h1.trans h2, charsLt_trans xs ys zs h1r h2r⟩

theorem keyLt_trans (a b c : String) (hab : keyLt a b = true) (hbc : keyLt b c = true) :
    keyLt a c = true := charsLt_trans a.data b.data c.data hab hbc

theorem keyLt_asymm (a b : String) (h : keyLt a b = true) : keyLt b a = false := by
  by_contra hc
  have hba : keyLt b a = true := by simpa using hc
  have := keyLt_trans a b a h hba
  simp [keyLt_irrefl] at this

theorem keyLt_ne (a b : String) (h : keyLt a b = true) : a ≠ b := by
  rintro rfl
  simp [keyLt_irrefl] at h

theorem Map.get_insert {α : Type} (m : Map α) (k : String) (v : α) (q : String) :
    Map.get (Map.insert m k v) q = if q = k then some v else Map.get m q := by
  induction m with
  | nil => by_cases hq : q = k <;> simp [Map.insert, Map.get, hq]
  | cons kv rest ih =>
    obtain ⟨k0, v0⟩ := kv
    by_cases hlt : keyLt k k0 = true
    · by_cases hq : q = k <;> simp [Map.insert, hlt, Map.get, hq]
    · rw [Bool.not_eq_true] at hlt
      by_cases heq : k = k0
      · subst heq
        by_cases hq : q = k <;> simp [Map.insert, hlt, Map.get, hq]
      · have heq0 : ¬k0 = k := fun e => heq e.symm
        by_cases hq : q = k <;> by_cases hq0 : q = k0
        · exact absurd (hq ▸ hq0) heq
        · subst hq
          simp [Map.insert, hlt, heq, Map.get, hq0, ih]
        · subst hq0
          simp [Map.insert, hlt, heq, heq0, Map.get, hq, ih]
        · simp [Map.insert, hlt, heq, Map.get, hq, hq0, ih]

theorem Map.mem_of_get_eq_some {α : Type} :
    ∀ (m : Map α) (k : String) (v : α), Map.get m k = some v → (k, v) ∈ m
  | [], k, v, h => by simp [Map.get] at h
  | (k0, v0) :: rest, k, v, h => by
    by_cases hk : k = k0
    · subst hk
      simp [Map.get] at h
      simp [h]
    · simp [Map.get, hk] at h
      exact List.mem_cons_of_mem _ (Map.mem_of_get_eq_some rest k v h)

theorem Map.get_eq_none_iff {α : Type} :
    ∀ (m : Map α) (k : String), Map.get m k = none ↔ ∀ v : α, (k, v) ∉ m
  | [], k => by simp [Map.get]
  | (k0, v0) :: rest, k => by
    by_cases hk : k = k0
    · subst hk
      simp only [Map.get, if_pos rfl]
      constructor
      · intro h
        exact Option.noConfusion h
      · intro h
        exact absurd (List.mem_cons_self _ _) (h v0)
    · simp only [Map.get, if_neg hk, Map.get_eq_none_iff rest k, List.mem_cons]
      constructor
      · intro h v hv
        rcases hv with he | hm
        · exact hk (congrArg Prod.fst he)
        · exact h v hm
      · intro h v hv
        exact h v (Or.inr hv)

theorem Map.sortedKeys_tail {α : Type} (k : String) (v : α) (rest : Map α)
    (h : Map.sortedKeys ((k, v) :: rest) = true) : Map.sortedKeys rest = true := by
  cases rest with
  | nil => rfl
  | cons kv r =>
    obtain ⟨k2, v2⟩ := kv
    simp only [Map.sortedKeys, Bool.and_eq_true] at h
    exact h.2

theorem Map.sortedKeys_head_lt {α : Type} : ∀ (k : String) (v : α) (rest : Map α),
    Map.sortedKeys ((k, v) :: rest) = true → ∀ kv ∈ rest, keyLt k kv.1 = true
  | k, v, [], h => by simp
  | k, v, (k2, v2) :: r, h => by
    simp only [Map.sortedKeys, Bool.and_eq_true] at h
    intro kv hkv
    rcases List.mem_cons.mp hkv with rfl | hr
    · exact h.1
    · exact keyLt_trans _ _ _ h.1 (Map.sortedKeys_head_lt k2 v2 r h.2 kv hr)

theorem Map.get_eq_none_of_lt {α : Type} :
    ∀ (m : Map α) (k : String), (∀ kv ∈ m, keyLt k kv.1 = true) → Map.get m k = none
  | [], k, _ => rfl
  | (k0, v0) :: rest, k, h => by
    have hne : k ≠ k0 := keyLt_ne k k0 (h (k0, v0) (by simp))
    simp [Map.get, hne]
    exact Map.get_eq_none_of_lt rest k fun kv hkv => h kv (List.mem_cons_of_mem _ hkv)

theorem Map.get_head_notin_tail {α : Type} (k : String) (v : α) (rest : Map α)
    (h : Map.sortedKeys ((k, v) :: rest) = true) : Map.get rest k = none :=
  Map.get_eq_none_of_lt rest k (Map.sortedKeys_head_lt k v rest h)

theorem Map.get_of_mem {α : Type} : ∀ (m : Map α) (k : String) (v : α),
    Map.sortedKeys m = true → (k, v) ∈ m → Map.get m k = some v
  | [], k, v, _, hm => by simp at hm
  | (k0, v0) :: rest, k, v, hs, hm => by
    rcases List.mem_cons.mp hm with h | h
    · obtain ⟨rfl, rfl⟩ := Prod.mk.injEq .. ▸ h
      simp [Map.get]
    · by_cases hk : k = k0
      · subst hk
        have := Map.sortedKeys_head_lt k v0 rest hs (k, v) h
        simp [keyLt_irrefl] at this
      · simp [Map.get, hk]
        exact Map.get_of_mem rest k v (Map.sortedKeys_tail k0 v0 rest hs) h

theorem Map.insert_of_all_lt {α : Type} : ∀ (m : Map α) (k : String) (v : α),
    (∀ kv ∈ m, keyLt kv.1 k = true) → Map.insert m k v = m ++ [(k, v)]
  | [], k, v, _ => rfl
  | (k0, v0) :: rest, k, v, h => by
    have h0 : keyLt k0 k = true := h (k0, v0) (by simp)
    have h1 : keyLt k k0 = false := keyLt_asymm _ _ h0
    have h2 : k ≠ k0 := fun e => by
      rw [e] at h0
      simp [keyLt_irrefl] at h0
    simp [Map.insert, h1, h2]
    exact Map.insert_of_all_lt rest k v fun kv hkv => h kv (List.mem_cons_of_mem _ hkv)

/-! ## Properties of the merge engine -/

theorem Value.mergeMap_get : ∀ (m2 : Map Value), Map.sortedKeys m2 = true →
    ∀ (m1 : Map Value) (k : String),
    Map.get (Value.mergeMap m1 m2) k =
      match Map.get m1 k, Map.get m2 k with
      | some a, some b => some (Value.merge_mut a b)
      | some a, none => some a
      | none, some b => some b
      | none, none => none
  | [], _, m1, k => by
    cases hm : Map.get m1 k <;> simp [Value.mergeMap, Map.get, hm]
  | (k2, v2) :: rest, hs, m1, k => by
    have hrest : Map.sortedKeys rest = true := Map.sortedKeys_tail _ _ _ hs
    have hk2 : Map.get rest k2 = none := Map.get_head_notin_tail _ _ _ hs
    by_cases hk : k = k2
    · subst hk
      cases hm1 : Map.get m1 k with
      | some sv =>
        simp only [Value.mergeMap, hm1, Map.get, if_pos rfl]
        rw [Value.mergeMap_get rest hrest]
        simp [Map.get_insert, hk2]
      | none =>
        simp only [Value.mergeMap, hm1, Map.get, if_pos rfl]
        rw [Value.mergeMap_get rest hrest]
        simp [Map.get_insert, hk2]
    · cases hm1 : Map.get m1 k2 with
      | some sv =>
        simp only [Value.mergeMap, hm1, Map.get, if_neg hk]
        rw [Value.mergeMap_get rest hrest]
        simp [Map.get_insert, hk]
      | none =>
        simp only [Value.mergeMap, hm1, Map.get, if_neg hk]
        rw [Value.mergeMap_get rest hrest]
        simp [Map.get_insert, hk]

theorem Value.merge_mut_replace (s o : Value)
    (h : Value.is_object s = false ∨ Value.is_object o = false) :
    Value.merge_mut s o = o := by
  cases s <;> cases o <;> simp_all [Value.is_object, Value.merge_mut]

theorem Value.mergeMap_nil (m : Map Value) : Value.mergeMap m [] = m := rfl

theorem Value.merge_object_object (m1 m2 : Map Value) :
    Value.merge_mut (Value.object m1) (Value.object m2) =
      Value.object (Value.mergeMap m1 m2) := rfl

/-! ## Properties of the resolution pass -/

mutual

theorem Value.initUpTo_zero (R : Resolver) : ∀ v : Value, Value.initUpTo R v 0 = (v, 0)
  | .inputString u => rfl
  | .inputBool u => rfl
  | .inputInt u => rfl
  | .inputFloat u => rfl
  | .object m => by simp [Value.initUpTo, Value.initUpToMap_zero R m]
  | .array a => by simp [Value.initUpTo, Value.initUpToList_zero R a]
  | .string s => rfl
  | .bool b => rfl
  | .int n => rfl
  | .float f => rfl
  | .null => rfl

theorem Value.initUpToMap_zero (R : Resolver) : ∀ m : Map Value,
    Value.initUpToMap R m 0 = (m, 0)
  | [] => rfl
  | (k, v) :: rest => by
    simp [Value.initUpToMap, Value.initUpTo_zero R v, Value.initUpToMap_zero R rest]

theorem Value.initUpToList_zero (R : Resolver) : ∀ a : List Value,
    Value.initUpToList R a 0 = (a, 0)
  | [] => rfl
  | v :: rest => by
    simp [Value.initUpToList, Value.initUpTo_zero R v, Value.initUpToList_zero R rest]

end

theorem allOk_append (R : Resolver) (ps qs : List Pending) :
    allOk R (ps ++ qs) = (allOk R ps && allOk R qs) := List.all_append

theorem firstFailure_eq_none_iff (R : Resolver) : ∀ ps : List Pending,
    firstFailure R ps = none ↔ allOk R ps = true
  | [] => by simp [firstFailure, allOk]
  | p :: rest => by
    cases hp : p.resolve R with
    | ok v =>
      simp [firstFailure, allOk, List.all_cons, Pending.resolves, hp,
        firstFailure_eq_none_iff R rest]
    | error e =>
      simp [firstFailure, allOk, List.all_cons, Pending.resolves, hp]

theorem resolvedCount_of_allOk (R : Resolver) : ∀ ps : List Pending,
    allOk R ps = true → resolvedCount R ps = ps.length
  | [], _ => rfl
  | p :: rest, h => by
    rw [allOk, List.all_cons] at h
    cases hp : p.resolve R with
    | ok v =>
      simp only [Pending.resolves, hp, Bool.true_and] at h
      simp [resolvedCount, hp, resolvedCount_of_allOk R rest h]
    | error e =>
      simp only [Pending.resolves, hp, Bool.false_and] at h
      exact absurd h (by simp)

theorem resolvedCount_append_ok (R : Resolver) : ∀ ps qs : List Pending,
    allOk R ps = true → resolvedCount R (ps ++ qs) = ps.length + resolvedCount R qs
  | [], qs, _ => by simp
  | p :: rest, qs, h => by
    rw [allOk, List.all_cons] at h
    cases hp : p.resolve R with
    | ok v =>
      simp only [Pending.resolves, hp, Bool.true_and] at h
      simp [resolvedCount, hp, resolvedCount_append_ok R rest qs h]
      omega
    | error e =>
      simp only [Pending.resolves, hp, Bool.false_and] at h
      exact absurd h (by simp)

theorem resolvedCount_append_fail (R : Resolver) : ∀ ps qs : List Pending,
    allOk R ps = false → resolvedCount R (ps ++ qs) = resolvedCount R ps
  | [], qs, h => by simp [allOk] at h
  | p :: rest, qs, h => by
    rw [allOk, List.all_cons] at h
    cases hp : p.resolve R with
    | ok v =>
      simp only [Pending.resolves, hp, Bool.true_and] at h
      simp [resolvedCount, hp, resolvedCount_append_fail R rest qs h]
    | error e =>
      simp [resolvedCount, hp]

theorem firstFailure_append_ok (R : Resolver) : ∀ ps qs : List Pending,
    allOk R ps = true → firstFailure R (ps ++ qs) = firstFailure R qs
  | [], qs, _ => rfl
  | p :: rest, qs, h => by
    rw [allOk, List.all_cons] at h
    cases hp : p.resolve R with
    | ok v =>
      simp only [Pending.resolves, hp, Bool.true_and] at h
      simp [firstFailure, hp, firstFailure_append_ok R rest qs h]
    | error e =>
      simp only [Pending.resolves, hp, Bool.false_and] at h
      exact absurd h (by simp)

theorem firstFailure_append_fail (R : Resolver) : ∀ ps qs : List Pending,
    allOk R ps = false → firstFailure R (ps ++ qs) = firstFailure R ps
  | [], qs, h => by simp [allOk] at h
  | p :: rest, qs, h => by
    rw [allOk, List.all_cons] at h
    cases hp : p.resolve R with
    | ok v =>
      simp only [Pending.resolves, hp, Bool.true_and] at h
      simp [firstFailure, hp, firstFailure_append_fail R rest qs h]
    | error e =>
      simp [firstFailure, hp]

mutual

theorem Value.init_eq_initUpTo (R : Resolver) : ∀ v : Value,
    (allOk R (Value.pendings v) = true →
      (Value.init R v).2 = none ∧
      ∀ k, Value.initUpTo R v ((Value.pendings v).length + k) = ((Value.init R v).1, k)) ∧
    (allOk R (Value.pendings v) = false →
      (Value.init R v).2 = (firstFailure R (Value.pendings v)).map TryFromError.inputError ∧
      Value.initUpTo R v (resolvedCount R (Value.pendings v)) = ((Value.init R v).1, 0))
  | .inputString u => by
    cases hu : R.getString u with
    | ok s =>
      have hin : Value.init R (Value.inputString u) = (Value.string s, none) := by
        simp [Value.init, hu]
      constructor
      · intro _
        refine ⟨by rw [hin], fun k => ?_⟩
        have hpend : Value.pendings (Value.inputString u) = [Pending.pstring u] := rfl
        rw [hpend, hin, show [Pending.pstring u].length + k = k + 1 from by simp [Nat.add_comm]]
        simp [Value.initUpTo, hu]
      · intro hfail
        simp [Value.pendings, allOk, Pending.resolves, Pending.resolve, Except.map, hu] at hfail
    | error e =>
      have hin : Value.init R (Value.inputString u)
          = (Value.inputString u, some (TryFromError.inputError e)) := by
        simp [Value.init, hu]
      constructor
      · intro hok
        simp [Value.pendings, allOk, Pending.resolves, Pending.resolve, Except.map, hu] at hok
      · intro _
        have hrc : resolvedCount R (Value.pendings (Value.inputString u)) = 0 := by
          simp [Value.pendings, resolvedCount, Pending.resolve, Except.map, hu]
        have hff : firstFailure R (Value.pendings (Value.inputString u)) = some e := by
          simp [Value.pendings, firstFailure, Pending.resolve, Except.map, hu]
        rw [hrc, hff, hin]
        exact ⟨rfl, rfl⟩
  | .inputBool u => by
    cases hu : R.getBool u with
    | ok b =>
      have hin : Value.init R (Value.inputBool u) = (Value.bool b, none) := by
        simp [Value.init, hu]
      constructor
      · intro _
        refine ⟨by rw [hin], fun k => ?_⟩
        have hpend : Value.pendings (Value.inputBool u) = [Pending.pbool u] := rfl
        rw [hpend, hin, show [Pending.pbool u].length + k = k + 1 from by simp [Nat.add_comm]]
        simp [Value.initUpTo, hu]
      · intro hfail
        simp [Value.pendings, allOk, Pending.resolves, Pending.resolve, Except.map, hu] at hfail
    | error e =>
      have hin : Value.init R (Value.inputBool u)
          = (Value.inputBool u, some (TryFromError.inputError e)) := by
        simp [Value.init, hu]
      constructor
      · intro hok
        simp [Value.pendings, allOk, Pending.resolves, Pending.resolve, Except.map, hu] at hok
      · intro _
        have hrc : resolvedCount R (Value.pendings (Value.inputBool u)) = 0 := by
          simp [Value.pendings, resolvedCount, Pending.resolve, Except.map, hu]
        have hff : firstFailure R (Value.pendings (Value.inputBool u)) = some e := by
          simp [Value.pendings, firstFailure, Pending.resolve, Except.map, hu]
        rw [hrc, hff, hin]
        exact ⟨rfl, rfl⟩
  | .inputInt u => by
    cases hu : R.getInt u with
    | ok n =>
      have hin : Value.init R (Value.inputInt u) = (Value.int n, none) := by
        simp [Value.init, hu]
      constructor
      · intro _
        refine ⟨by rw [hin], fun k => ?_⟩
        have hpend : Value.pendings (Value.inputInt u) = [Pending.pint u] := rfl
        rw [hpend, hin, show [Pending.pint u].length + k = k + 1 from by simp [Nat.add_comm]]
        simp [Value.initUpTo, hu]
      · intro hfail
        simp [Value.pendings, allOk, Pending.resolves, Pending.resolve, Except.map, hu] at hfail
    | error e =>
      have hin : Value.init R (Value.inputInt u)
          = (Value.inputInt u, some (TryFromError.inputError e)) := by
        simp [Value.init, hu]
      constructor
      · intro hok
        simp [Value.pendings, allOk, Pending.resolves, Pending.resolve, Except.map, hu] at hok
      · intro _
        have hrc : resolvedCount R (Value.pendings (Value.inputInt u)) = 0 := by
          simp [Value.pendings, resolvedCount, Pending.resolve, Except.map, hu]
        have hff : firstFailure R (Value.pendings (Value.inputInt u)) = some e := by
          simp [Value.pendings, firstFailure, Pending.resolve, Except.map, hu]
        rw [hrc, hff, hin]
        exact ⟨rfl, rfl⟩
  | .inputFloat u => by
    cases hu : R.getFloat u with
    | ok f =>
      have hin : Value.init R (Value.inputFloat u) = (Value.float f, none) := by
        simp [Value.init, hu]
      constructor
      · intro _
        refine ⟨by rw [hin], fun k => ?_⟩
        have hpend : Value.pendings (Value.inputFloat u) = [Pending.pfloat u] := rfl
        rw [hpend, hin, show [Pending.pfloat u].length + k = k + 1 from by simp [Nat.add_comm]]
        simp [Value.initUpTo, hu]
      · intro hfail
        simp [Value.pendings, allOk, Pending.resolves, Pending.resolve, Except.map, hu] at hfail
    | error e =>
      have hin : Value.init R (Value.inputFloat u)
          = (Value.inputFloat u, some (TryFromError.inputError e)) := by
        simp [Value.init, hu]
      constructor
      · intro hok
        simp [Value.pendings, allOk, Pending.resolves, Pending.resolve, Except.map, hu] at hok
      · intro _
        have hrc : resolvedCount R (Value.pendings (Value.inputFloat u)) = 0 := by
          simp [Value.pendings, resolvedCount, Pending.resolve, Except.map, hu]
        have hff : firstFailure R (Value.pendings (Value.inputFloat u)) = some e := by
          simp [Value.pendings, firstFailure, Pending.resolve, Except.map, hu]
        rw [hrc, hff, hin]
        exact ⟨rfl, rfl⟩
  | .object m => by
    obtain ⟨hOk, hFail⟩ := Value.initMap_eq_initUpTo R m
    cases him : Value.initMap R m with
    | mk m1 e1 =>
    rw [him] at hOk hFail
    have hinit : Value.init R (Value.object m) = (Value.object m1, e1) := by
      simp [Value.init, him]
    have hpend : Value.pendings (Value.object m) = Value.pendingsMap m := rfl
    constructor
    · intro h
      obtain ⟨h2, hUp⟩ := hOk (by rwa [hpend] at h)
      refine ⟨by simp [hinit]; simpa using h2, fun k => ?_⟩
      have h1 := hUp k
      rw [hpend, hinit]
      simp [Value.initUpTo, h1]
    · intro h
      obtain ⟨h2, hUp⟩ := hFail (by rwa [hpend] at h)
      refine ⟨?_, ?_⟩
      · rw [hinit, hpend]
        simpa using h2
      · rw [hpend, hinit]
        simp [Value.initUpTo, hUp]
  | .array a => by
    obtain ⟨hOk, hFail⟩ := Value.initList_eq_initUpTo R a
    cases him : Value.initList R a with
    | mk a1 e1 =>
    rw [him] at hOk hFail
    have hinit : Value.init R (Value.array a) = (Value.array a1, e1) := by
      simp [Value.init, him]
    have hpend : Value.pendings (Value.array a) = Value.pendingsList a := rfl
    constructor
    · intro h
      obtain ⟨h2, hUp⟩ := hOk (by rwa [hpend] at h)
      refine ⟨by simp [hinit]; simpa using h2, fun k => ?_⟩
      have h1 := hUp k
      rw [hpend, hinit]
      simp [Value.initUpTo, h1]
    · intro h
      obtain ⟨h2, hUp⟩ := hFail (by rwa [hpend] at h)
      refine ⟨?_, ?_⟩
      · rw [hinit, hpend]
        simpa using h2
      · rw [hpend, hinit]
        simp [Value.initUpTo, hUp]
  | .string s => by
    refine ⟨fun _ => ⟨rfl, fun k => ?_⟩, fun h => by simp [Value.pendings, allOk] at h⟩
    simp [Value.pendings, Value.initUpTo, Value.init]
  | .bool b => by
    refine ⟨fun _ => ⟨rfl, fun k => ?_⟩, fun h => by simp [Value.pendings, allOk] at h⟩
    simp [Value.pendings, Value.initUpTo, Value.init]
  | .int n => by
    refine ⟨fun _ => ⟨rfl, fun k => ?_⟩, fun h => by simp [Value.pendings, allOk] at h⟩
    simp [Value.pendings, Value.initUpTo, Value.init]
  | .float f => by
    refine ⟨fun _ => ⟨rfl, fun k => ?_⟩, fun h => by simp [Value.pendings, allOk] at h⟩
    simp [Value.pendings, Value.initUpTo, Value.init]
  | .null => by
    refine ⟨fun _ => ⟨rfl, fun k => ?_⟩, fun h => by simp [Value.pendings, allOk] at h⟩
    simp [Value.pendings, Value.initUpTo, Value.init]
termination_by v => sizeOf v

theorem Value.initMap_eq_initUpTo (R : Resolver) : ∀ m : Map Value,
    (allOk R (Value.pendingsMap m) = true →
      (Value.initMap R m).2 = none ∧
      ∀ k, Value.initUpToMap R m ((Value.pendingsMap m).length + k)
        = ((Value.initMap R m).1, k)) ∧
    (allOk R (Value.pendingsMap m) = false →
      (Value.initMap R m).2
        = (firstFailure R (Value.pendingsMap m)).map TryFromError.inputError ∧
      Value.initUpToMap R m (resolvedCount R (Value.pendingsMap m))
        = ((Value.initMap R m).1, 0))
  | [] => by
    refine ⟨fun _ => ⟨rfl, fun k => ?_⟩, fun h => by simp [Value.pendingsMap, allOk] at h⟩
    simp [Value.pendingsMap, Value.initUpToMap, Value.initMap]
  | (key, v) :: rest => by
    obtain ⟨hvOk, hvFail⟩ := Value.init_eq_initUpTo R v
    obtain ⟨hrOk, hrFail⟩ := Value.initMap_eq_initUpTo R rest
    cases hiv : Value.init R v with
    | mk v1 ev =>
    cases hir : Value.initMap R rest with
    | mk r1 er =>
    rw [hiv] at hvOk hvFail
    rw [hir] at hrOk hrFail
    have hpend : Value.pendingsMap ((key, v) :: rest)
        = Value.pendings v ++ Value.pendingsMap rest := rfl
    by_cases hv : allOk R (Value.pendings v) = true
    · obtain ⟨hv2, hvUp⟩ := hvOk hv
      have hv2n : ev = none := by simpa using hv2
      subst hv2n
      have hcons : Value.initMap R ((key, v) :: rest) = ((key, v1) :: r1, er) := by
        simp [Value.initMap, hiv, hir]
      by_cases hr : allOk R (Value.pendingsMap rest) = true
      · obtain ⟨hr2, hrUp⟩ := hrOk hr
        have hr2n : er = none := by simpa using hr2
        subst hr2n
        constructor
        · intro _
          refine ⟨by simp [hcons], fun k => ?_⟩
          rw [hpend, hcons]
          simp only [List.length_append]
          rw [Nat.add_assoc]
          have h1 := hvUp ((Value.pendingsMap rest).length + k)
          have h2 := hrUp k
          simp [Value.initUpToMap, h1, h2]
        · intro hfail
          rw [hpend, allOk_append, hv, hr] at hfail
          simp at hfail
      · have hrF : allOk R (Value.pendingsMap rest) = false := by simpa using hr
        obtain ⟨hr2, hrUp⟩ := hrFail hrF
        constructor
        · intro hok
          rw [hpend, allOk_append, hv, hrF] at hok
          simp at hok
        · intro _
          have hrc : resolvedCount R (Value.pendingsMap ((key, v) :: rest))
              = (Value.pendings v).length + resolvedCount R (Value.pendingsMap rest) := by
            rw [hpend]
            exact resolvedCount_append_ok R _ _ hv
          have hff : firstFailure R (Value.pendingsMap ((key, v) :: rest))
              = firstFailure R (Value.pendingsMap rest) := by
            rw [hpend]
            exact firstFailure_append_ok R _ _ hv
          refine ⟨?_, ?_⟩
          · rw [hcons, hff]
            simpa using hr2
          · rw [hrc, hcons]
            have h1 := hvUp (resolvedCount R (Value.pendingsMap rest))
            simp [Value.initUpToMap, h1, hrUp]
    · have hvF : allOk R (Value.pendings v) = false := by simpa using hv
      obtain ⟨hv2, hvUp⟩ := hvFail hvF
      have hffv : ∃ e0, firstFailure R (Value.pendings v) = some e0 := by
        cases hff : firstFailure R (Value.pendings v) with
        | none => exact absurd ((firstFailure_eq_none_iff R _).mp hff) (by simp [hvF])
        | some e0 => exact ⟨e0, rfl⟩
      obtain ⟨e0, hffv⟩ := hffv
      have hv2s : ev = some (TryFromError.inputError e0) := by simpa [hffv] using hv2
      subst hv2s
      have hcons : Value.initMap R ((key, v) :: rest)
          = ((key, v1) :: rest, some (TryFromError.inputError e0)) := by
        simp [Value.initMap, hiv]
      constructor
      · intro hok
        rw [hpend, allOk_append, hvF] at hok
        simp at hok
      · intro _
        have hrc : resolvedCount R (Value.pendingsMap ((key, v) :: rest))
            = resolvedCount R (Value.pendings v) := by
          rw [hpend]
          exact resolvedCount_append_fail R _ _ hvF
        have hff : firstFailure R (Value.pendingsMap ((key, v) :: rest))
            = firstFailure R (Value.pendings v) := by
          rw [hpend]
          exact firstFailure_append_fail R _ _ hvF
        refine ⟨?_, ?_⟩
        · rw [hcons, hff, hffv]
          rfl
        · rw [hrc, hcons]
          simp [Value.initUpToMap, hvUp, Value.initUpToMap_zero]
termination_by m => sizeOf m

theorem Value.initList_eq_initUpTo (R : Resolver) : ∀ a : List Value,
    (allOk R (Value.pendingsList a) = true →
      (Value.initList R a).2 = none ∧
      ∀ k, Value.initUpToList R a ((Value.pendingsList a).length + k)
        = ((Value.initList R a).1, k)) ∧
    (allOk R (Value.pendingsList a) = false →
      (Value.initList R a).2
        = (firstFailure R (Value.pendingsList a)).map TryFromError.inputError ∧
      Value.initUpToList R a (resolvedCount R (Value.pendingsList a))
        = ((Value.initList R a).1, 0))
  | [] => by
    refine ⟨fun _ => ⟨rfl, fun k => ?_⟩, fun h => by simp [Value.pendingsList, allOk] at h⟩
    simp [Value.pendingsList, Value.initUpToList, Value.initList]
  | v :: rest => by
    obtain ⟨hvOk, hvFail⟩ := Value.init_eq_initUpTo R v
    obtain ⟨hrOk, hrFail⟩ := Value.initList_eq_initUpTo R rest
    cases hiv : Value.init R v with
    | mk v1 ev =>
    cases hir : Value.initList R rest with
    | mk r1 er =>
    rw [hiv] at hvOk hvFail
    rw [hir] at hrOk hrFail
    have hpend : Value.pendingsList (v :: rest)
        = Value.pendings v ++ Value.pendingsList rest := rfl
    by_cases hv : allOk R (Value.pendings v) = true
    · obtain ⟨hv2, hvUp⟩ := hvOk hv
      have hv2n : ev = none := by simpa using hv2
      subst hv2n
      have hcons : Value.initList R (v :: rest) = (v1 :: r1, er) := by
        simp [Value.initList, hiv, hir]
      by_cases hr : allOk R (Value.pendingsList rest) = true
      · obtain ⟨hr2, hrUp⟩ := hrOk hr
        have hr2n : er = none := by simpa using hr2
        subst hr2n
        constructor
        · intro _
          refine ⟨by simp [hcons], fun k => ?_⟩
          rw [hpend, hcons]
          simp only [List.length_append]
          rw [Nat.add_assoc]
          have h1 := hvUp ((Value.pendingsList rest).length + k)
          have h2 := hrUp k
          simp [Value.initUpToList, h1, h2]
        · intro hfail
          rw [hpend, allOk_append, hv, hr] at hfail
          simp at hfail
      · have hrF : allOk R (Value.pendingsList rest) = false := by simpa using hr
        obtain ⟨hr2, hrUp⟩ := hrFail hrF
        constructor
        · intro hok
          rw [hpend, allOk_append, hv, hrF] at hok
          simp at hok
        · intro _
          have hrc : resolvedCount R (Value.pendingsList (v :: rest))
              = (Value.pendings v).length + resolvedCount R (Value.pendingsList rest) := by
            rw [hpend]
            exact resolvedCount_append_ok R _ _ hv
          have hff : firstFailure R (Value.pendingsList (v :: rest))
              = firstFailure R (Value.pendingsList rest) := by
            rw [hpend]
            exact firstFailure_append_ok R _ _ hv
          refine ⟨?_, ?_⟩
          · rw [hcons, hff]
            simpa using hr2
          · rw [hrc, hcons]
            have h1 := hvUp (resolvedCount R (Value.pendingsList rest))
            simp [Value.initUpToList, h1, hrUp]
    · have hvF : allOk R (Value.pendings v) = false := by simpa using hv
      obtain ⟨hv2, hvUp⟩ := hvFail hvF
      have hffv : ∃ e0, firstFailure R (Value.pendings v) = some e0 := by
        cases hff : firstFailure R (Value.pendings v) with
        | none => exact absurd ((firstFailure_eq_none_iff R _).mp hff) (by simp [hvF])
        | some e0 => exact ⟨e0, rfl⟩
      obtain ⟨e0, hffv⟩ := hffv
      have hv2s : ev = some (TryFromError.inputError e0) := by simpa [hffv] using hv2
      subst hv2s
      have hcons : Value.initList R (v :: rest)
          = (v1 :: rest, some (TryFromError.inputError e0)) := by
        simp [Value.initList, hiv]
      constructor
      · intro hok
        rw [hpend, allOk_append, hvF] at hok
        simp at hok
      · intro _
        have hrc : resolvedCount R (Value.pendingsList (v :: rest))
            = resolvedCount R (Value.pendings v) := by
          rw [hpend]
          exact resolvedCount_append_fail R _ _ hvF
        have hff : firstFailure R (Value.pendingsList (v :: rest))
            = firstFailure R (Value.pendings v) := by
          rw [hpend]
          exact firstFailure_append_fail R _ _ hvF
        refine ⟨?_, ?_⟩
        · rw [hcons, hff, hffv]
          rfl
        · rw [hrc, hcons]
          simp [Value.initUpToList, hvUp, Value.initUpToList_zero]
termination_by a => sizeOf a

end

mutual

theorem Value.init_of_concrete (R : Resolver) : ∀ v : Value,
    Value.isConcrete v = true → Value.init R v = (v, none)
  | .array a, h => by
    have hl := Value.initList_of_concrete R a (by simpa [Value.isConcrete] using h)
    simp [Value.init, hl]
  | .object m, h => by
    have hm := Value.initMap_of_concrete R m (by simpa [Value.isConcrete] using h)
    simp [Value.init, hm]
  | .inputString u, h => by simp [Value.isConcrete] at h
  | .inputBool u, h => by simp [Value.isConcrete] at h
  | .inputInt u, h => by simp [Value.isConcrete] at h
  | .inputFloat u, h => by simp [Value.isConcrete] at h
  | .string s, _ => rfl
  | .bool b, _ => rfl
  | .int n, _ => rfl
  | .float f, _ => rfl
  | .null, _ => rfl
termination_by v => sizeOf v

theorem Value.initMap_of_concrete (R : Resolver) : ∀ m : Map Value,
    Value.isConcreteMap m = true → Value.initMap R m = (m, none)
  | [], _ => rfl
  | (k, v) :: rest, h => by
    rw [Value.isConcreteMap, Bool.and_eq_true] at h
    simp [Value.initMap, Value.init_of_concrete R v h.1,
      Value.initMap_of_concrete R rest h.2]
termination_by m => sizeOf m

theorem Value.initList_of_concrete (R : Resolver) : ∀ a : List Value,
    Value.isConcreteList a = true → Value.initList R a = (a, none)
  | [], _ => rfl
  | v :: rest, h => by
    rw [Value.isConcreteList, Bool.and_eq_true] at h
    simp [Value.initList, Value.init_of_concrete R v h.1,
      Value.initList_of_concrete R rest h.2]
termination_by a => sizeOf a

end

mutual

theorem Value.init_ok_concrete (R : Resolver) : ∀ v : Value,
    (Value.init R v).2 = none → Value.isConcrete (Value.init R v).1 = true
  | .inputString u, h => by
    cases hu : R.getString u with
    | ok s => simp [Value.init, hu, Value.isConcrete]
    | error e => simp [Value.init, hu] at h
  | .inputBool u, h => by
    cases hu : R.getBool u with
    | ok b => simp [Value.init, hu, Value.isConcrete]
    | error e => simp [Value.init, hu] at h
  | .inputInt u, h => by
    cases hu : R.getInt u with
    | ok n => simp [Value.init, hu, Value.isConcrete]
    | error e => simp [Value.init, hu] at h
  | .inputFloat u, h => by
    cases hu : R.getFloat u with
    | ok f => simp [Value.init, hu, Value.isConcrete]
    | error e => simp [Value.init, hu] at h
  | .object m, h => by
    cases him : Value.initMap R m with
    | mk m1 e1 =>
      have h1 : e1 = none := by
        rw [show (Value.init R (Value.object m)).2 = e1 from by simp [Value.init, him]] at h
        exact h
      subst h1
      have hc := Value.initMap_ok_concrete R m (by rw [him])
      rw [him] at hc
      simp [Value.init, him, Value.isConcrete]
      simpa using hc
  | .array a, h => by
    cases hia : Value.initList R a with
    | mk a1 e1 =>
      have h1 : e1 = none := by
        rw [show (Value.init R (Value.array a)).2 = e1 from by simp [Value.init, hia]] at h
        exact h
      subst h1
      have hc := Value.initList_ok_concrete R a (by rw [hia])
      rw [hia] at hc
      simp [Value.init, hia, Value.isConcrete]
      simpa using hc
  | .string s, _ => rfl
  | .bool b, _ => rfl
  | .int n, _ => rfl
  | .float f, _ => rfl
  | .null, _ => rfl
termination_by v => sizeOf v

theorem Value.initMap_ok_concrete (R : Resolver) : ∀ m : Map Value,
    (Value.initMap R m).2 = none → Value.isConcreteMap (Value.initMap R m).1 = true
  | [], _ => rfl
  | (k, v) :: rest, h => by
    cases hiv : Value.init R v with
    | mk v1 ev =>
      cases ev with
      | none =>
        cases hir : Value.initMap R rest with
        | mk r1 er =>
          have hcons : Value.initMap R ((k, v) :: rest) = ((k, v1) :: r1, er) := by
            simp [Value.initMap, hiv, hir]
          rw [hcons] at h ⊢
          have h1 := Value.init_ok_concrete R v (by rw [hiv])
          rw [hiv] at h1
          have h2 := Value.initMap_ok_concrete R rest (by rw [hir]; exact h)
          rw [hir] at h2
          simp [Value.isConcreteMap]
          exact ⟨by simpa using h1, by simpa using h2⟩
      | some e =>
        have hcons : Value.initMap R ((k, v) :: rest) = ((k, v1) :: rest, some e) := by
          simp [Value.initMap, hiv]
        rw [hcons] at h
        simp at h
termination_by m => sizeOf m

theorem Value.initList_ok_concrete (R : Resolver) : ∀ a : List Value,
    (Value.initList R a).2 = none → Value.isConcreteList (Value.initList R a).1 = true
  | [], _ => rfl
  | v :: rest, h => by
    cases hiv : Value.init R v with
    | mk v1 ev =>
      cases ev with
      | none =>
        cases hir : Value.initList R rest with
        | mk r1 er =>
          have hcons : Value.initList R (v :: rest) = (v1 :: r1, er) := by
            simp [Value.initList, hiv, hir]
          rw [hcons] at h ⊢
          have h1 := Value.init_ok_concrete R v (by rw [hiv])
          rw [hiv] at h1
          have h2 := Value.initList_ok_concrete R rest (by rw [hir]; exact h)
          rw [hir] at h2
          simp [Value.isConcreteList]
          exact ⟨by simpa using h1, by simpa using h2⟩
      | some e =>
        have hcons : Value.initList R (v :: rest) = (v1 :: rest, some e) := by
          simp [Value.initList, hiv]
        rw [hcons] at h
        simp at h
termination_by a => sizeOf a

end

/-! ## Properties of the serialization adapter -/

theorem Value.serializeMap_keys : ∀ m : Map Value,
    (Value.serializeMap m).map Prod.fst = m.map Prod.fst
  | [] => rfl
  | (k, v) :: rest => by simp [Value.serializeMap, Value.serializeMap_keys rest]

theorem deserPendingChain_none (mw : List (String × Wire))
    (h1 : keysAmong (mw.map Prod.fst) ["default", "description"] = false)
    (h2 : keysAmong (mw.map Prod.fst) ["alternatives", "description"] = false) :
    deserPendingChain (Wire.map mw) = none := by
  simp [deserPendingChain, deserUserInput, deserInput, deserSelect, deserBoolInput, h1, h2]

mutual

theorem Value.deserialize_serialize : ∀ v : Value,
    Value.isConcrete v = true → Value.wf v = true → Value.serdeSafe v = true →
    deserializeV (Value.serialize v) = some v
  | .array a, hc, hw, hs => by
    have ha := Value.deserializeSeq_serializeList a (by simpa [Value.isConcrete] using hc)
      (by simpa [Value.wf] using hw) (by simpa [Value.serdeSafe] using hs)
    simp [Value.serialize, deserializeV, ha]
  | .object m, hc, hw, hs => by
    rw [Value.wf, Bool.and_eq_true] at hw
    rw [Value.serdeSafe, Bool.and_eq_true, Bool.and_eq_true] at hs
    obtain ⟨⟨ha, hb⟩, hsm⟩ := hs
    rw [Bool.not_eq_true'] at ha hb
    have hkeys := Value.serializeMap_keys m
    have hchain := deserPendingChain_none (Value.serializeMap m)
      (by rwa [hkeys]) (by rwa [hkeys])
    have hmap := Value.deserializeMap_serializeMap m (by simpa [Value.isConcreteMap] using hc)
      hw.2 hsm hw.1 [] (by simp)
    simp [Value.serialize, deserializeV, hchain, hmap]
  | .inputString u, hc, _, _ => by simp [Value.isConcrete] at hc
  | .inputBool u, hc, _, _ => by simp [Value.isConcrete] at hc
  | .inputInt u, hc, _, _ => by simp [Value.isConcrete] at hc
  | .inputFloat u, hc, _, _ => by simp [Value.isConcrete] at hc
  | .string s, _, _, _ => rfl
  | .bool b, _, _, _ => rfl
  | .int n, _, _, _ => rfl
  | .float f, _, _, _ => rfl
  | .null, _, _, _ => rfl
termination_by v => sizeOf v

theorem Value.deserializeMap_serializeMap : ∀ m : Map Value,
    Value.isConcreteMap m = true → Value.wfMap m = true → Value.serdeSafeMap m = true →
    Map.sortedKeys m = true →
    ∀ acc : Map Value, (∀ a ∈ acc, ∀ b ∈ m, keyLt a.1 b.1 = true) →
    deserializeMap (Value.serializeMap m) acc = some (acc ++ m)
  | [], _, _, _, _, acc, _ => by simp [Value.serializeMap, deserializeMap]
  | (k, v) :: rest, hc, hw, hs, hsort, acc, hacc => by
    rw [Value.isConcreteMap, Bool.and_eq_true] at hc
    rw [Value.wfMap, Bool.and_eq_true] at hw
    rw [Value.serdeSafeMap, Bool.and_eq_true] at hs
    have hv := Value.deserialize_serialize v hc.1 hw.1 hs.1
    have hins : Map.insert acc k v = acc ++ [(k, v)] :=
      Map.insert_of_all_lt acc k v (fun kv hkv => hacc kv hkv (k, v) (by simp))
    have hacc2 : ∀ a ∈ acc ++ [(k, v)], ∀ b ∈ rest, keyLt a.1 b.1 = true := by
      intro a hma b hb
      rcases List.mem_append.mp hma with h | h
      · exact hacc a h b (List.mem_cons_of_mem _ hb)
      · simp at h
        rw [h]
        exact Map.sortedKeys_head_lt k v rest hsort b hb
    have hrec := Value.deserializeMap_serializeMap rest hc.2 hw.2 hs.2
      (Map.sortedKeys_tail _ _ _ hsort) (acc ++ [(k, v)]) hacc2
    simp [Value.serializeMap, deserializeMap, hv, hins, hrec]
termination_by m => sizeOf m

theorem Value.deserializeSeq_serializeList : ∀ a : List Value,
    Value.isConcreteList a = true → Value.wfList a = true → Value.serdeSafeList a = true →
    deserializeSeq (Value.serializeList a) = some a
  | [], _, _, _ => rfl
  | v :: rest, hc, hw, hs => by
    rw [Value.isConcreteList, Bool.and_eq_true] at hc
    rw [Value.wfList, Bool.and_eq_true] at hw
    rw [Value.serdeSafeList, Bool.and_eq_true] at hs
    have hv := Value.deserialize_serialize v hc.1 hw.1 hs.1
    have hrest := Value.deserializeSeq_serializeList rest hc.2 hw.2 hs.2
    simp [Value.serializeList, deserializeSeq, hv, hrest]
termination_by a => sizeOf a

end

/-! ## Claim theorems -/

/-- C1: `a.merge(b)` (and `merge_mut`) follows the pairwise policy at every
level of recursion.  When both sides are objects, a lookup in the result
succeeds exactly when it succeeds on either side (the key set is the union),
keys present in both sides are merged recursively, and keys present in only
one side take that side's value verbatim (cloned).  For every other pairing
of variants the right-hand value wholly replaces the left-hand one — no
element-wise array merge, no partial scalar combination — and `merge` is
`merge_mut` on a clone. -/
theorem merge_follows_pairwise_policy :
    (∀ m1 m2 : Map Value, Map.sortedKeys m2 = true → ∀ k : String,
      Map.get (Value.mergeMap m1 m2) k =
        match Map.get m1 k, Map.get m2 k with
        | some a, some b => some (Value.merge_mut a b)
        | some a, none => some a
        | none, some b => some b
        | none, none => none) ∧
    (∀ m1 m2 : Map Value,
      Value.merge (Value.object m1) (Value.object m2)
        = Value.object (Value.mergeMap m1 m2)) ∧
    (∀ s o : Value, Value.is_object s = false ∨ Value.is_object o = false →
      Value.merge s o = o) ∧
    (∀ s o : Value, Value.merge s o = Value.merge_mut s o) :=
  ⟨fun m1 m2 h k => Value.mergeMap_get m2 h m1 k,
   fun _ _ => rfl,
   fun s o h => Value.merge_mut_replace s o h,
   fun _ _ => rfl⟩

/-- Witness for C1 at concrete maps sharing the key `b`. -/
theorem merge_follows_pairwise_policy_witness :
    Map.get (Value.mergeMap
        [("a", Value.int 1), ("b", Value.int 2)]
        [("b", Value.int 3), ("c", Value.int 4)]) "b"
      = some (Value.merge_mut (Value.int 2) (Value.int 3)) :=
  merge_follows_pairwise_policy.1
    [("a", Value.int 1), ("b", Value.int 2)]
    [("b", Value.int 3), ("c", Value.int 4)] rfl "b"

/-- C2: if `init` returns `Ok` then the resulting tree is fully concrete —
no pending-input variant remains anywhere — and each pending-input leaf has
been replaced in place by the literal variant of its own scalar type. -/
theorem init_ok_leaves_tree_concrete (R : Resolver) (v : Value) :
    ((Value.init R v).2 = none → Value.isConcrete (Value.init R v).1 = true) ∧
    (∀ u, (Value.init R (Value.inputString u)).2 = none →
      ∃ s, R.getString u = Except.ok s ∧
        Value.init R (Value.inputString u) = (Value.string s, none)) ∧
    (∀ u, (Value.init R (Value.inputBool u)).2 = none →
      ∃ b, R.getBool u = Except.ok b ∧
        Value.init R (Value.inputBool u) = (Value.bool b, none)) ∧
    (∀ u, (Value.init R (Value.inputInt u)).2 = none →
      ∃ n, R.getInt u = Except.ok n ∧
        Value.init R (Value.inputInt u) = (Value.int n, none)) ∧
    (∀ u, (Value.init R (Value.inputFloat u)).2 = none →
      ∃ f, R.getFloat u = Except.ok f ∧
        Value.init R (Value.inputFloat u) = (Value.float f, none)) := by
  refine ⟨Value.init_ok_concrete R v, ?_, ?_, ?_, ?_⟩
  · intro u h
    cases hu : R.getString u with
    | ok s => exact ⟨s, rfl, by simp [Value.init, hu]⟩
    | error e => simp [Value.init, hu] at h
  · intro u h
    cases hu : R.getBool u with
    | ok b => exact ⟨b, rfl, by simp [Value.init, hu]⟩
    | error e => simp [Value.init, hu] at h
  · intro u h
    cases hu : R.getInt u with
    | ok n => exact ⟨n, rfl, by simp [Value.init, hu]⟩
    | error e => simp [Value.init, hu] at h
  · intro u h
    cases hu : R.getFloat u with
    | ok f => exact ⟨f, rfl, by simp [Value.init, hu]⟩
    | error e => simp [Value.init, hu] at h

/-- Witness for C2: resolving the sample tree with the always-succeeding
resolver leaves a fully-concrete tree. -/
theorem init_ok_leaves_tree_concrete_witness :
    Value.isConcrete (Value.init okResolver samplePendingTree).1 = true :=
  (init_ok_leaves_tree_concrete okResolver samplePendingTree).1 rfl

/-- C3 (amended): for a fully-concrete, well-formed tree in which no object
has a key set matching a pending-input record (no object whose keys all lie
in `default` / `description`, nor all in `alternatives` / `description`),
deserializing the serialization yields the same tree.  The unrestricted
round-trip claim is refuted by `serde_roundtrip_fails_on_empty_object`. -/
theorem serde_roundtrip_of_safe (v : Value) (hc : Value.isConcrete v = true)
    (hw : Value.wf v = true) (hs : Value.serdeSafe v = true) :
    deserializeV (Value.serialize v) = some v :=
  Value.deserialize_serialize v hc hw hs

/-- Witness for C3 on a concrete nested tree. -/
theorem serde_roundtrip_of_safe_witness :
    deserializeV (Value.serialize sampleConcreteTree) = some sampleConcreteTree :=
  serde_roundtrip_of_safe sampleConcreteTree rfl rfl rfl

/-- Counterexample to C3 as stated: the empty object (`Value::new()`) is
fully concrete, yet its serialization (the empty map) deserializes to the
pending-input node `InputString(Input { default: None, description: None })`,
not back to the empty object. -/
theorem serde_roundtrip_fails_on_empty_object :
    Value.isConcrete (Value.object []) = true ∧
    deserializeV (Value.serialize (Value.object []))
      = some (Value.inputString (UserInput.input ⟨none, none⟩)) ∧
    Value.inputString (UserInput.input ⟨none, none⟩) ≠ Value.object [] :=
  ⟨rfl, rfl, fun h => Value.noConfusion h⟩

/-- C4: `init` resolves pending-input nodes in place, in traversal order
(index order in arrays, key order in sorted objects), up to the first node
whose resolution fails; it surfaces that first error, and the failing node
and every node after it are left untouched.  Formally, the result of `init`
equals the fuel-bounded in-place replay `initUpTo` run for exactly
`resolvedCount` steps (the number of pending nodes before the first
failure), paired with the first failure lifted into `TryFromError`; and with
no fuel the replay leaves the tree unchanged, so everything at or after the
failure point is untouched. -/
theorem init_stops_at_first_failure (R : Resolver) (v : Value) :
    Value.init R v
      = ((Value.initUpTo R v (resolvedCount R (Value.pendings v))).1,
         (firstFailure R (Value.pendings v)).map TryFromError.inputError) ∧
    Value.initUpTo R v 0 = (v, 0) := by
  refine ⟨?_, Value.initUpTo_zero R v⟩
  obtain ⟨hOk, hFail⟩ := Value.init_eq_initUpTo R v
  by_cases h : allOk R (Value.pendings v) = true
  · obtain ⟨h2, hUp⟩ := hOk h
    cases hi : Value.init R v with
    | mk v1 e1 =>
      rw [hi] at h2 hUp
      have h2n : e1 = none := by simpa using h2
      subst h2n
      have hrc := resolvedCount_of_allOk R _ h
      have hff := (firstFailure_eq_none_iff R _).mpr h
      have hU := hUp 0
      rw [Nat.add_zero] at hU
      rw [hrc, hU, hff]
      rfl
  · have hF : allOk R (Value.pendings v) = false := by simpa using h
    obtain ⟨h2, hUp⟩ := hFail hF
    cases hi : Value.init R v with
    | mk v1 e1 =>
      rw [hi] at h2 hUp
      rw [hUp, Prod.mk.injEq]
      exact ⟨rfl, by simpa using h2⟩

/-- Witness for C4: with the always-failing resolver the sample tree stops
at its first pending node. -/
theorem init_stops_at_first_failure_witness :
    Value.init failResolver samplePendingTree
      = ((Value.initUpTo failResolver samplePendingTree
            (resolvedCount failResolver (Value.pendings samplePendingTree))).1,
         (firstFailure failResolver (Value.pendings samplePendingTree)).map
            TryFromError.inputError) :=
  (init_stops_at_first_failure failResolver samplePendingTree).1

/-- C5: for every value, `is_int` holds iff `as_int` does not fail with
`TypeMismatch` (under any resolver), and likewise for the bool / float /
string pairs; on a pending-input node of the matching type the accessor can
only fail with an input-resolution error, never `TypeMismatch`. -/
theorem predicate_matches_accessor (R : Resolver) (v : Value) :
    (Value.is_bool v = true ↔ Value.as_bool R v ≠ Except.error TryFromError.typeMismatch) ∧
    (Value.is_int v = true ↔ Value.as_int R v ≠ Except.error TryFromError.typeMismatch) ∧
    (Value.is_float v = true ↔ Value.as_float R v ≠ Except.error TryFromError.typeMismatch) ∧
    (Value.is_string v = true ↔ Value.as_string R v ≠ Except.error TryFromError.typeMismatch) ∧
    (∀ u e, Value.as_bool R (Value.inputBool u) = Except.error e →
      ∃ ie, e = TryFromError.inputError ie) ∧
    (∀ u e, Value.as_int R (Value.inputInt u) = Except.error e →
      ∃ ie, e = TryFromError.inputError ie) ∧
    (∀ u e, Value.as_float R (Value.inputFloat u) = Except.error e →
      ∃ ie, e = TryFromError.inputError ie) ∧
    (∀ u e, Value.as_string R (Value.inputString u) = Except.error e →
      ∃ ie, e = TryFromError.inputError ie) := by
  refine ⟨?_, ?_, ?_, ?_, ?_, ?_, ?_, ?_⟩
  · cases v <;> simp [Value.is_bool, Value.as_bool]
    case inputBool u => cases hu : R.getBool u <;> simp [Except.mapError, hu]
  · cases v <;> simp [Value.is_int, Value.as_int]
    case inputInt u => cases hu : R.getInt u <;> simp [Except.mapError, hu]
  · cases v <;> simp [Value.is_float, Value.as_float]
    case inputFloat u => cases hu : R.getFloat u <;> simp [Except.mapError, hu]
  · cases v <;> simp [Value.is_string, Value.as_string]
    case inputString u => cases hu : R.getString u <;> simp [Except.mapError, hu]
  · intro u e h
    cases hu : R.getBool u with
    | ok b => simp [Value.as_bool, Except.mapError, hu] at h
    | error e0 =>
      simp [Value.as_bool, Except.mapError, hu] at h
      exact ⟨e0, h.symm⟩
  · intro u e h
    cases hu : R.getInt u with
    | ok n => simp [Value.as_int, Except.mapError, hu] at h
    | error e0 =>
      simp [Value.as_int, Except.mapError, hu] at h
      exact ⟨e0, h.symm⟩
  · intro u e h
    cases hu : R.getFloat u with
    | ok f => simp [Value.as_float, Except.mapError, hu] at h
    | error e0 =>
      simp [Value.as_float, Except.mapError, hu] at h
      exact ⟨e0, h.symm⟩
  · intro u e h
    cases hu : R.getString u with
    | ok s => simp [Value.as_string, Except.mapError, hu] at h
    | error e0 =>
      simp [Value.as_string, Except.mapError, hu] at h
      exact ⟨e0, h.symm⟩

/-- Witness for C5 on a literal integer. -/
theorem predicate_matches_accessor_witness :
    Value.as_int okResolver (Value.int 3) ≠ Except.error TryFromError.typeMismatch :=
  (predicate_matches_accessor okResolver (Value.int 3)).2.1.mp rfl

/-- C6: `init` on a fully-concrete tree (for example one on which `init`
already succeeded) is a no-op that cannot fail: it returns `Ok` and leaves
the tree unchanged. -/
theorem init_noop_on_concrete (R : Resolver) (v : Value)
    (h : Value.isConcrete v = true) : Value.init R v = (v, none) :=
  Value.init_of_concrete R v h

/-- Witness for C6: even the always-failing resolver leaves the concrete
sample tree untouched. -/
theorem init_noop_on_concrete_witness :
    Value.init failResolver sampleConcreteTree = (sampleConcreteTree, none) :=
  init_noop_on_concrete failResolver sampleConcreteTree rfl

/-- C7: merging an object with the empty object (`Value::new()`) leaves it
untouched, and merging two objects whose key sets are disjoint yields
exactly the union of their entries: a lookup returns the left entry when the
key is on the left, otherwise the right entry, otherwise nothing, with no
recursive merging of values. -/
theorem merge_empty_and_disjoint :
    (∀ m : Map Value, Value.merge (Value.object m) Value.new = Value.object m) ∧
    (∀ m1 m2 : Map Value, Map.sortedKeys m2 = true →
      (∀ kv ∈ m1, Map.get m2 kv.1 = none) →
      ∀ k : String, Map.get (Value.mergeMap m1 m2) k =
        match Map.get m1 k with
        | some a => some a
        | none => Map.get m2 k) := by
  refine ⟨fun m => rfl, ?_⟩
  intro m1 m2 hs hdis k
  have hchar := Value.mergeMap_get m2 hs m1 k
  cases h1 : Map.get m1 k with
  | some a =>
    have h2 : Map.get m2 k = none := hdis (k, a) (Map.mem_of_get_eq_some m1 k a h1)
    rw [hchar, h1, h2]
  | none =>
    rw [hchar, h1]
    cases h2 : Map.get m2 k <;> rfl

/-- Witness for C7 on disjoint singleton maps. -/
theorem merge_empty_and_disjoint_witness :
    Map.get (Value.mergeMap [("a", Value.int 1)] [("b", Value.int 2)]) "b"
      = some (Value.int 2) := by
  have h := merge_empty_and_disjoint.2 [("a", Value.int 1)] [("b", Value.int 2)] rfl
    (by
      intro kv hkv
      simp at hkv
      rw [hkv]
      rfl)
  exact h "b"

/-- C8: `get` and `insert` on a non-object receiver (for example
`Value::Null`) do not return a normal error value or `None`: they terminate
abnormally (panic); on an object, `get` returns `Some` of the stored value
exactly when the key is present and `None` exactly when it is absent. -/
theorem get_insert_panic_contract :
    (∀ (v : Value) (k : String), Value.is_object v = false →
      Value.get v k = Panics.panicked) ∧
    (∀ (v : Value) (k : String) (w : Value), Value.is_object v = false →
      Value.insert v k w = Panics.panicked) ∧
    (∀ (m : Map Value) (k : String),
      Value.get (Value.object m) k = Panics.ret (Map.get m k)) ∧
    (∀ (m : Map Value) (k : String) (v : Value), Map.sortedKeys m = true →
      (Map.get m k = some v ↔ (k, v) ∈ m)) ∧
    (∀ (m : Map Value) (k : String),
      (Map.get m k = none ↔ ∀ v : Value, (k, v) ∉ m)) := by
  refine ⟨?_, ?_, fun _ _ => rfl, ?_, ?_⟩
  · intro v k h
    cases v <;> simp_all [Value.is_object, Value.get]
  · intro v k w h
    cases v <;> simp_all [Value.is_object, Value.insert]
  · intro m k v hs
    exact ⟨Map.mem_of_get_eq_some m k v, Map.get_of_mem m k v hs⟩
  · intro m k
    exact Map.get_eq_none_iff m k

/-- Witness for C8: `get` on `Value::Null` panics. -/
theorem get_insert_panic_contract_witness :
    Value.get Value.null "int" = Panics.panicked :=
  get_insert_panic_contract.1 Value.null "int" rfl

/-- C9: `get_or` navigates via `get` and therefore shares its fatal
precondition — on a non-object receiver (for example `Value::Null`) it
panics instead of returning `Ok(default)` or an error value; the
fallback-to-default (and the conversion of a present value) applies only
when the receiver is an object. -/
theorem get_or_panic_contract :
    (∀ (α : Type) (conv : Value → Except TryFromError α) (v : Value)
        (k : String) (d : α), Value.is_object v = false →
      Value.get_or conv v k d = Panics.panicked) ∧
    (∀ (α : Type) (conv : Value → Except TryFromError α) (m : Map Value)
        (k : String) (d : α), Map.get m k = none →
      Value.get_or conv (Value.object m) k d = Panics.ret (Except.ok d)) ∧
    (∀ (α : Type) (conv : Value → Except TryFromError α) (m : Map Value)
        (k : String) (d : α) (val : Value), Map.get m k = some val →
      Value.get_or conv (Value.object m) k d = Panics.ret (conv val)) := by
  refine ⟨?_, ?_, ?_⟩
  · intro α conv v k d h
    cases v <;> simp_all [Value.is_object, Value.get_or, Value.get]
  · intro α conv m k d h
    simp [Value.get_or, Value.get, h]
  · intro α conv m k d val h
    simp [Value.get_or, Value.get, h]

/-- Witness for C9: `get_or` on `Value::Null` panics rather than returning
the default. -/
theorem get_or_panic_contract_witness :
    Value.get_or (Value.as_int okResolver) Value.null "x" 3 = Panics.panicked :=
  get_or_panic_contract.1 Int (Value.as_int okResolver) Value.null "x" 3 rfl

/-- C10 (amended): untagged deserialization tries the pending-input records
before the generic Object, so a map accepted by one of the pending-input
deserializers (keys among the distinguishing names and values of the
matching scalar types) decodes as that pending-input node, never as an
Object; in particular the empty map decodes as
`InputString(Input { default: None, description: None })`, not as the empty
object.  A map whose keys are distinguishing but whose values fit no
pending-input record falls through to Object
(`map_with_default_key_decodes_as_object`). -/
theorem map_pending_shapes_tried_before_object :
    (∀ (mw : List (String × Wire)) (v : Value),
      deserPendingChain (Wire.map mw) = some v →
      deserializeV (Wire.map mw) = some v) ∧
    deserializeV (Wire.map [])
      = some (Value.inputString (UserInput.input ⟨none, none⟩)) := by
  refine ⟨?_, rfl⟩
  intro mw v h
  simp [deserializeV, h]

/-- Witness for C10: a map with an integer `default` decodes as the
pending-input `InputInt` node. -/
theorem map_pending_shapes_tried_before_object_witness :
    deserializeV (Wire.map [("default", Wire.int 1)])
      = some (Value.inputInt (UserInput.input ⟨some 1, none⟩)) :=
  map_pending_shapes_tried_before_object.1 [("default", Wire.int 1)]
    (Value.inputInt (UserInput.input ⟨some 1, none⟩)) rfl

/-- Counterexample to C10 as stated: the map `{"default": []}` has its only
key among the distinguishing field names, yet it decodes as a (fully
concrete) Object, because a sequence fits none of the pending-input field
types. -/
theorem map_with_default_key_decodes_as_object :
    deserializeV (Wire.map [("default", Wire.seq [])])
      = some (Value.object [("default", Value.array [])]) ∧
    Value.is_object (Value.object [("default", Value.array [])]) = true ∧
    Value.isConcrete (Value.object [("default", Value.array [])]) = true :=
  ⟨rfl, rfl, rfl⟩
